/-
Verification of the PROT_CLUST protein-interaction clustering pipeline.

Shallow embedding of the graph construction, the bottleneck ranking
pipelines, the MCL post-processing and the reproducibility comparator,
translated from the Python sources under src/features/.  Edge weights are
modelled as rationals; node identifiers are strings, as in the source.
Library calls that are external to the repository (networkx community
detectors, sklearn agreement metrics) are modelled from the specification
where a claim depends on them; each such definition carries a doc comment
starting with: Modelled from the spec.
-/
import Mathlib

namespace ProtClust

/-! ## Stable sorting by key

Python `list.sort` / `sorted` are stable sorts.  `sortK` is a stable
insertion sort by a key function: an element is inserted after all earlier
elements whose key is strictly smaller, and before the first element with
an equal or larger key, so elements with equal keys keep their input
order, exactly as in Python.  Descending sorts (`reverse=True`) are
modelled by negating the key, which for numeric keys produces the same
stable result. -/

/-- Insert `a` into `l`, walking past elements whose key is strictly
smaller, so that `a` lands before any element with an equal key. -/
def insK {α β : Type} [LinearOrder β] (key : α → β) (a : α) : List α → List α
  | [] => [a]
  | b :: l => if key b < key a then b :: insK key a l else a :: b :: l

/-- Stable insertion sort by `key`, ascending. -/
def sortK {α β : Type} [LinearOrder β] (key : α → β) : List α → List α
  | [] => []
  | a :: t => insK key a (sortK key t)

/-! ## Weighted graph model

The scripts build an undirected `networkx.Graph` by replaying the rows of
the ingested table through `add_edge(p1, p2, weight=score)`
(src/features/01_run_louvain.py lines 31-36,
src/features/louvain_clust_object_out.py lines 52-54).  A graph is
modelled by the list of ingested records; `add_edge` overwrites the
weight of an existing unordered pair, so the weight of an edge is the one
carried by the last matching record.  `networkx.Graph.add_edge` performs
no validation whatsoever: self-loops and non-positive weights are stored
like any other record. -/

/-- One ingested row: `(protein1, protein2, combined_score)`. -/
abbrev Rec : Type := String × String × ℚ

/-- Weight of the edge between `u` and `v` in the graph built from
`recs`: the weight of the last record matching the unordered pair, as
produced by repeated `add_edge` calls; `none` when no record matches. -/
def weightOf : List Rec → String → String → Option ℚ
  | [], _, _ => none
  | (a, b, w) :: t, u, v =>
    match weightOf t u v with
    | some w2 => some w2
    | none => if (a = u ∧ b = v) ∨ (a = v ∧ b = u) then some w else none

/-- Edge membership in the built graph. -/
def hasEdge (recs : List Rec) (u v : String) : Bool :=
  (weightOf recs u v).isSome

/-- Append `x` to the node list if it is new (first-appearance order, as
in the `networkx` node dictionary). -/
def addNode (l : List String) (x : String) : List String :=
  if x ∈ l then l else l ++ [x]

/-- Node list of the built graph, in order of first appearance. -/
def nodesOf (recs : List Rec) : List String :=
  recs.foldl (fun acc r => addNode (addNode acc r.1) r.2.1) []

/-- Neighbours of `u` in the built graph. -/
def neighbors (recs : List Rec) (u : String) : List String :=
  (nodesOf recs).filter (fun v => hasEdge recs u v)

/-- Degree as computed by `dict(subG.degree())` with no `weight` keyword
(src/features/prot_clust_modules/bottleneck_analysis.py line 100,
src/features/04_target_bottleneck.py line 62): the number of incident
edges, a self-loop counting twice, independent of the edge weights. -/
def nxDegree (recs : List Rec) (u : String) : ℕ :=
  ((neighbors recs u).map (fun v => if v = u then 2 else 1)).sum

/-- Follows the spec text, for comparison with `nxDegree`: the degree of
a node as the sum of the weights of its incident edges (weighted
degree). -/
def weightedDegreeSpec (recs : List Rec) (u : String) : ℚ :=
  ((neighbors recs u).map (fun v => (weightOf recs u v).getD 0)).sum

/-- Induced subgraph on a node subset, as `G.subgraph(target_nodes)`:
only the records with both endpoints inside the subset survive. -/
def subgraphOf (recs : List Rec) (keep : List String) : List Rec :=
  recs.filter (fun r => r.1 ∈ keep ∧ r.2.1 ∈ keep)

/-- Weight preprocessing of the MCL pipeline
(src/features/05_markov_clust_highperformance_object_out.py line 51,
src/features/markov_clustering_highperform_object_out.py line 40):
`df[combined_score] = df[combined_score] / 1000.0` before the graph is
built.  The Louvain pipeline builds its graph from the raw records. -/
def mclRecords (recs : List Rec) : List Rec :=
  recs.map (fun r => (r.1, r.2.1, r.2.2 / 1000))

/-! ## Rank helpers shared by the two bottleneck rankers -/

/-- First-match association lookup with a default, as `dict.get(k, d)`. -/
def lookupD {β : Type} : List (String × β) → String → β → β
  | [], _, d => d
  | (a, x) :: t, k, d => if a = k then x else lookupD t k d

/-- Positions of a sorted metric list turned into 1-based ranks, as
`{node: rank+1 for rank, (node, val) in enumerate(sorted_items)}`. -/
def enumRanks (l : List (String × ℚ)) : List (String × ℕ) :=
  l.enum.map (fun p => (p.2.1, p.1 + 1))

/-- The function `get_ranks(metric_dict, ascending)` from
src/features/prot_clust_modules/bottleneck_analysis.py lines 24-30:
stable sort of the metric items by value (descending when
`ascending=False`, modelled by the negated key), then 1-based ranks. -/
def getRanks (metric : List (String × ℚ)) (ascending : Bool) : List (String × ℕ) :=
  enumRanks (sortK (fun p => if ascending then p.2 else -p.2) metric)

/-- Truncated rank window of src/features/04_target_bottleneck.py lines
71-79: stable sort of the metric items by value, keep the first `N`
entries, then 1-based ranks. -/
def truncRanks (metric : List (String × ℚ)) (ascending : Bool) (N : ℕ) :
    List (String × ℕ) :=
  enumRanks ((sortK (fun p => if ascending then p.2 else -p.2) metric).take N)

/-! ## Betweenness mode selection (bottleneck_analysis.py lines 103-109) -/

/-- How betweenness centrality is computed for a community subgraph. -/
inductive BCMode : Type
  | exact : BCMode
  | approx (sampleSize : ℕ) (seed : ℕ) : BCMode
deriving DecidableEq

/-- Default `large_cluster_limit` of `btl_anal`
(src/features/prot_clust_modules/bottleneck_analysis.py line 37). -/
def largeClusterLimitDefault : ℕ := 500

/-- The branch of src/features/prot_clust_modules/bottleneck_analysis.py
lines 104-109: when the subgraph has more than `limit` nodes, approximate
betweenness with `k_sample = int(len(subG) * 0.20)` source nodes and
`seed=42`; otherwise exact betweenness over all sources.  The float
truncation `int(n * 0.20)` is the floor `n * 20 / 100` in exact
arithmetic. -/
def bcSelect (n limit : ℕ) : BCMode :=
  if limit < n then BCMode.approx (n * 20 / 100) 42 else BCMode.exact

/-! ## The bottleneck analysis pipeline of bottleneck_analysis.py -/

/-- Error surfaced by `btl_anal` through its `error` result field. -/
inductive BtlErr : Type
  | proteinNotFound (name : String) : BtlErr
deriving DecidableEq

/-- One row of the rank table assembled in
src/features/prot_clust_modules/bottleneck_analysis.py lines 119-130. -/
structure BtlRow where
  protein : String
  total : ℕ
  bc : ℚ
  degree : ℕ
  clustering : ℚ
deriving DecidableEq

/-- Helper for `findCluster`: the `node2cluster` dictionary is filled in
community order, a later community overwriting an earlier one, so the
lookup yields the index of the last community containing the node. -/
def fcAux (t : String) (i : ℕ) : List (List String) → Option ℕ
  | [] => none
  | c :: rest =>
    match fcAux t (i + 1) rest with
    | some k => some k
    | none => if t ∈ c then some i else none

/-- The `node2cluster` lookup of
src/features/prot_clust_modules/bottleneck_analysis.py lines 79-87. -/
def findCluster (communities : List (List String)) (t : String) : Option ℕ :=
  fcAux t 0 communities

/-- Core of `btl_anal`
(src/features/prot_clust_modules/bottleneck_analysis.py lines 77-130),
stripped of file and plot output.  The betweenness and clustering metric
vectors `bc` and `clust` are produced by external networkx calls on the
community subgraph and are taken as inputs; the degree vector is the
unweighted `dict(subG.degree())` computed here.  When the target protein
is in no community the function returns the error result of line 85 and
no rank table; it mutates nothing (the embedding is pure, as the source
only reads the loaded graph and communities).  The source sorts the rank
table by `Total_Score` only (pandas `sort_values`); the model uses the
stable sort as its deterministic representative. -/
def btlAnal (communities : List (List String)) (g : List Rec)
    (bc clust : List (String × ℚ)) (target : String) :
    Except BtlErr (ℕ × List BtlRow) :=
  match findCluster communities target with
  | none => Except.error (BtlErr.proteinNotFound target)
  | some cid =>
    let targetNodes := communities.getD cid []
    let sub := subgraphOf g targetNodes
    let subNodes := (nodesOf g).filter (fun v => v ∈ targetNodes)
    let deg := subNodes.map (fun u => (u, (nxDegree sub u : ℚ)))
    let rankBC := getRanks bc false
    let rankDeg := getRanks deg false
    let rankClust := getRanks clust true
    let rows := subNodes.map (fun node =>
      { protein := node
        total := lookupD rankBC node 0 + lookupD rankDeg node 0 +
          lookupD rankClust node 0
        bc := lookupD bc node 0
        degree := nxDegree sub node
        clustering := lookupD clust node 0 : BtlRow })
    Except.ok (cid, sortK (fun r => (r.total : ℤ)) rows)

/-! ## The bounded top-N ranker of 04_target_bottleneck.py -/

/-- One entry of `combined_results`
(src/features/04_target_bottleneck.py lines 85-98). -/
structure CRow where
  protein : String
  rbc : ℕ
  rdeg : ℕ
  rclust : ℕ
  total : ℕ
deriving DecidableEq

/-- The combined ranking rows of src/features/04_target_bottleneck.py
lines 83-98, before the final sort.  A protein absent from a top-N rank
window receives the penalty rank `N + 1` through `dict.get`.  The
iteration order of the Python set `unique_proteins` is unspecified; it is
taken here as the explicit parameter `order`. -/
def combinedRows (bc deg clust : List (String × ℚ)) (N : ℕ)
    (order : List String) : List CRow :=
  let bcR := truncRanks bc false N
  let degR := truncRanks deg false N
  let clR := truncRanks clust true N
  order.map (fun p =>
    let r1 := lookupD bcR p (N + 1)
    let r2 := lookupD degR p (N + 1)
    let r3 := lookupD clR p (N + 1)
    { protein := p, rbc := r1, rdeg := r2, rclust := r3,
      total := r1 + r2 + r3 : CRow })

/-- The output table of src/features/04_target_bottleneck.py line 101:
`combined_results.sort(key=lambda x: x["Total_Score"])`, a stable sort by
the aggregate score alone. -/
def combinedResults (bc deg clust : List (String × ℚ)) (N : ℕ)
    (order : List String) : List CRow :=
  sortK (fun r => (r.total : ℤ)) (combinedRows bc deg clust N order)

/-! ## MCL post-processing (05_markov_clust_highperformance_object_out.py) -/

/-- Lines 89-100 of
src/features/05_markov_clust_highperformance_object_out.py: the clusters
returned by `mc.get_clusters` are lists of indices into `nodes_list`;
they are sorted by size, largest first (`sort(key=len, reverse=True)`,
stable, modelled by the negated-length key), and each index list is
mapped back to the set of protein names. -/
def processClusters (nodes : List String)
    (clusters : List (List (Fin nodes.length))) : List (Finset String) :=
  (sortK (fun c => -(c.length : ℤ)) clusters).map
    (fun c => (c.map nodes.get).toFinset)

/-! ## Community detectors (library calls, modelled from the spec) -/

/-- Modelled from the spec: `networkx.algorithms.community.louvain_communities`
is external to the repository.  Per spec section 4.2 the detector ends in
a terminal assignment mapping every original node to its terminal
community; the output communities are the fibers of that assignment over
the node set. -/
def louvainFibers (V : Finset String) (σ : String → ℕ) : Finset (Finset String) :=
  V.image (fun v => V.filter (fun u => σ u = σ v))

/-! ## Reproducibility comparator (03_reproducibility.py) -/

/-- The function `communities_to_labels` from
src/features/03_reproducibility.py lines
18-27: label of a node is the index of the (last) community containing
it, read off in one fixed node order.  The source raises a `KeyError` for
a node in no community; the model defaults to label 0, a case the
theorems below never rely on. -/
def communitiesToLabels (communities : List (List String))
    (nodes : List String) : List ℕ :=
  nodes.map (fun nd => (findCluster communities nd).getD 0)

/-- The pairing `itertools.combinations(l, 2)` as used on line 57 of
src/features/03_reproducibility.py: all unordered pairs, in order. -/
def pairsOf {α : Type} : List α → List (α × α)
  | [] => []
  | a :: t => (t.map (fun b => (a, b))) ++ pairsOf t

/-- Ordered index pairs `i < j` over `n` positions. -/
def idxPairs (n : ℕ) : List (ℕ × ℕ) :=
  (List.range n).flatMap
    (fun i => ((List.range n).filter (fun j => i < j)).map (fun j => (i, j)))

/-- Whether a label vector puts the two positions of a pair in the same
community. -/
def sameAt (v : List ℕ) (p : ℕ × ℕ) : Bool :=
  v.getD p.1 0 == v.getD p.2 0

/-- Position pairs joined in both labelings. -/
def tpPairs (x y : List ℕ) : ℕ :=
  ((idxPairs x.length).filter (fun p => sameAt x p && sameAt y p)).length

/-- Position pairs separated in both labelings. -/
def tnPairs (x y : List ℕ) : ℕ :=
  ((idxPairs x.length).filter (fun p => !sameAt x p && !sameAt y p)).length

/-- Position pairs joined in `x` but separated in `y`. -/
def fnPairs (x y : List ℕ) : ℕ :=
  ((idxPairs x.length).filter (fun p => sameAt x p && !sameAt y p)).length

/-- Position pairs separated in `x` but joined in `y`. -/
def fpPairs (x y : List ℕ) : ℕ :=
  ((idxPairs x.length).filter (fun p => !sameAt x p && sameAt y p)).length

/-- Modelled from the spec: `sklearn.metrics.adjusted_rand_score` is
external to the repository.  The adjusted-for-chance pairwise-agreement
index over all node pairs, computed from the pair confusion counts; when
no discordant pairs exist the two labelings carry the same pair
information and the score is the perfect-match value 1. -/
def ari (x y : List ℕ) : ℚ :=
  if fnPairs x y = 0 ∧ fpPairs x y = 0 then 1
  else
    (2 * ((tpPairs x y : ℚ) * (tnPairs x y : ℚ) -
      (fnPairs x y : ℚ) * (fpPairs x y : ℚ))) /
    (((tpPairs x y : ℚ) + (fnPairs x y : ℚ)) *
        ((fnPairs x y : ℚ) + (tnPairs x y : ℚ)) +
      ((tpPairs x y : ℚ) + (fpPairs x y : ℚ)) *
        ((fpPairs x y : ℚ) + (tnPairs x y : ℚ)))

/-- Modelled from the spec: entropy of a label vector, the building block
of the normalized mutual-information agreement score. -/
noncomputable def entropyH (v : List ℕ) : ℝ :=
  ∑ a ∈ v.toFinset,
    ((v.count a : ℝ) / (v.length : ℝ)) *
      Real.log ((v.length : ℝ) / (v.count a : ℝ))

/-- Modelled from the spec: mutual information between two label vectors
of equal length, from the joint label counts. -/
noncomputable def mutualInfo (x y : List ℕ) : ℝ :=
  ∑ a ∈ x.toFinset, ∑ b ∈ y.toFinset,
    if (x.zip y).count (a, b) = 0 then 0
    else (((x.zip y).count (a, b) : ℝ) / (x.length : ℝ)) *
      Real.log (((x.length : ℝ) * ((x.zip y).count (a, b) : ℝ)) /
        ((x.count a : ℝ) * (y.count b : ℝ)))

/-- Modelled from the spec: `sklearn.metrics.normalized_mutual_info_score`
is external to the repository.  Normalized mutual information with the
arithmetic-mean normalizer; two labelings with zero entropy carry the
same (empty) information and score the perfect-match value 1. -/
noncomputable def nmi (x y : List ℕ) : ℝ :=
  if x.toFinset.card = y.toFinset.card ∧ x.toFinset.card ≤ 1 then 1
  else mutualInfo x y / ((entropyH x + entropyH y) / 2)

/-! ## Lemmas about the stable sort -/

theorem mem_insK {α β : Type} [LinearOrder β] (key : α → β) (a x : α)
    (l : List α) : x ∈ insK key a l ↔ x = a ∨ x ∈ l := by
  induction l with
  | nil => simp [insK]
  | cons b t ih =>
    by_cases h : key b < key a
    · simp only [insK, if_pos h, List.mem_cons, ih]
      tauto
    · simp only [insK, if_neg h, List.mem_cons]

theorem perm_insK {α β : Type} [LinearOrder β] (key : α → β) (a : α)
    (l : List α) : (insK key a l).Perm (a :: l) := by
  induction l with
  | nil => exact List.Perm.refl _
  | cons b t ih =>
    by_cases h : key b < key a
    · simp only [insK, if_pos h]
      exact (ih.cons b).trans (List.Perm.swap a b t)
    · simp only [insK, if_neg h]
      exact List.Perm.refl _

theorem perm_sortK {α β : Type} [LinearOrder β] (key : α → β)
    (l : List α) : (sortK key l).Perm l := by
  induction l with
  | nil => exact List.Perm.refl _
  | cons a t ih =>
    exact (perm_insK key a (sortK key t)).trans (ih.cons a)

theorem mem_sortK {α β : Type} [LinearOrder β] (key : α → β) (x : α)
    (l : List α) : x ∈ sortK key l ↔ x ∈ l :=
  (perm_sortK key l).mem_iff

theorem pairwise_insK {α β : Type} [LinearOrder β] (key : α → β) (a : α)
    {l : List α} (h : l.Pairwise (fun x y => key x ≤ key y)) :
    (insK key a l).Pairwise (fun x y => key x ≤ key y) := by
  induction l with
  | nil => simp [insK]
  | cons b t ih =>
    rcases List.pairwise_cons.mp h with ⟨hb, ht⟩
    by_cases hlt : key b < key a
    · simp only [insK, if_pos hlt]
      refine List.pairwise_cons.mpr ⟨?_, ih ht⟩
      intro x hx
      rcases (mem_insK key a x t).mp hx with rfl | hxt
      · exact le_of_lt hlt
      · exact hb x hxt
    · simp only [insK, if_neg hlt]
      refine List.pairwise_cons.mpr ⟨?_, h⟩
      intro x hx
      rcases List.mem_cons.mp hx with rfl | hxt
      · exact le_of_not_lt hlt
      · exact le_trans (le_of_not_lt hlt) (hb x hxt)

theorem sorted_sortK {α β : Type} [LinearOrder β] (key : α → β)
    (l : List α) : (sortK key l).Pairwise (fun x y => key x ≤ key y) := by
  induction l with
  | nil => simp [sortK]
  | cons a t ih =>
    simp only [sortK]
    exact pairwise_insK key a ih

theorem filter_insK {α β : Type} [LinearOrder β] (key : α → β) (a : α)
    (K : β) (l : List α) :
    (insK key a l).filter (fun x => key x == K) =
      if key a = K then a :: l.filter (fun x => key x == K)
      else l.filter (fun x => key x == K) := by
  induction l with
  | nil => by_cases h : key a = K <;> simp [insK, h]
  | cons b t ih =>
    by_cases hlt : key b < key a
    · have hbne : ¬ key b = K → (key b == K) = false := fun h => beq_false_of_ne h
      simp only [insK, if_pos hlt, List.filter_cons]
      by_cases ha : key a = K
      · have hb : (key b == K) = false :=
          beq_false_of_ne (by rw [← ha]; exact ne_of_lt hlt)
        simp [hb, ih, ha]
      · by_cases hbk : key b = K <;> simp [hbk, ih, ha]
    · simp only [insK, if_neg hlt, List.filter_cons]
      by_cases ha : key a = K <;> simp [ha]

theorem filter_sortK {α β : Type} [LinearOrder β] (key : α → β) (K : β)
    (l : List α) :
    (sortK key l).filter (fun x => key x == K) =
      l.filter (fun x => key x == K) := by
  induction l with
  | nil => rfl
  | cons a t ih =>
    simp only [sortK, filter_insK, ih, List.filter_cons]
    by_cases ha : key a = K <;> simp [ha]

/-! ## Generic list lemmas -/

theorem sum_map_ones {α : Type} (f : α → ℕ) (l : List α)
    (h : ∀ x ∈ l, f x = 1) : (l.map f).sum = l.length := by
  induction l with
  | nil => rfl
  | cons a t ih =>
    have ha := h a (by simp)
    have ht := ih (fun x hx => h x (by simp [hx]))
    simp [ha, ht, Nat.add_comm]

theorem mem_pairsOf {α : Type} (p : α × α) (l : List α)
    (h : p ∈ pairsOf l) : p.1 ∈ l ∧ p.2 ∈ l := by
  induction l with
  | nil => simp [pairsOf] at h
  | cons a t ih =>
    simp only [pairsOf, List.mem_append, List.mem_map] at h
    rcases h with ⟨b, hb, rfl⟩ | h
    · exact ⟨by simp, by simp [hb]⟩
    · rcases ih h with ⟨h1, h2⟩
      exact ⟨by simp [h1], by simp [h2]⟩

theorem mem_foldr_union (L : List (Finset String)) (x : String) :
    x ∈ L.foldr (· ∪ ·) (∅ : Finset String) ↔ ∃ C ∈ L, x ∈ C := by
  induction L with
  | nil => simp
  | cons A t ih => simp [Finset.mem_union, ih]

/-! ## Graph lemmas -/

theorem weightOf_isSome_of_mem (recs : List Rec) (u v : String) (w : ℚ)
    (h : (u, v, w) ∈ recs) : (weightOf recs u v).isSome := by
  induction recs with
  | nil => simp at h
  | cons r t ih =>
    rcases List.mem_cons.mp h with heq | ht
    · subst heq
      cases hw : weightOf t u v with
      | some w3 => simp [weightOf, hw]
      | none => simp [weightOf, hw]
    · have hs := ih ht
      obtain ⟨a, b, w2⟩ := r
      cases hw : weightOf t u v with
      | some w3 => simp [weightOf, hw]
      | none => rw [hw] at hs; simp at hs

theorem weightOf_self_none (recs : List Rec) (u : String)
    (h : ∀ r ∈ recs, r.1 ≠ r.2.1) : weightOf recs u u = none := by
  induction recs with
  | nil => rfl
  | cons r t ih =>
    obtain ⟨a, b, w⟩ := r
    have hab : a ≠ b := h (a, b, w) (by simp)
    have ht := ih (fun r hr => h r (by simp [hr]))
    simp only [weightOf, ht]
    rw [if_neg]
    rintro (⟨h1, h2⟩ | ⟨h1, h2⟩) <;> exact hab (h1.trans h2.symm)

theorem subgraph_loopless (recs : List Rec) (keep : List String)
    (h : ∀ r ∈ recs, r.1 ≠ r.2.1) :
    ∀ r ∈ subgraphOf recs keep, r.1 ≠ r.2.1 :=
  fun r hr => h r (List.mem_filter.mp hr).1

theorem nxDegree_eq_length (recs : List Rec) (u : String)
    (h : ∀ r ∈ recs, r.1 ≠ r.2.1) :
    nxDegree recs u = (neighbors recs u).length := by
  unfold nxDegree
  apply sum_map_ones
  intro v hv
  have hne : ¬ v = u := by
    rintro rfl
    have hedge : hasEdge recs v v = true := (List.mem_filter.mp hv).2
    unfold hasEdge at hedge
    rw [weightOf_self_none recs v h] at hedge
    simp at hedge
  simp [hne]

/-! ## Pipeline lemmas -/

theorem fcAux_none (t : String) (l : List (List String))
    (h : ∀ c ∈ l, t ∉ c) : ∀ i, fcAux t i l = none := by
  induction l with
  | nil => intro i; rfl
  | cons c rest ih =>
    intro i
    simp only [fcAux, ih (fun d hd => h d (by simp [hd])) (i + 1)]
    rw [if_neg (h c (by simp))]

theorem lookupD_not_mem {β : Type} (l : List (String × β)) (k : String)
    (d : β) (h : k ∉ l.map Prod.fst) : lookupD l k d = d := by
  induction l with
  | nil => rfl
  | cons p t ih =>
    obtain ⟨a, x⟩ := p
    simp only [List.map_cons, List.mem_cons] at h
    push_neg at h
    simp only [lookupD]
    rw [if_neg (fun hak => h.1 hak.symm)]
    exact ih h.2

/-! ## Agreement metric lemmas -/

theorem fnPairs_self (v : List ℕ) : fnPairs v v = 0 := by
  unfold fnPairs
  have h1 : (fun p => sameAt v p && !sameAt v p) = fun _ => false := by
    funext p
    exact Bool.and_not_self _
  rw [h1, List.filter_false, List.length_nil]

theorem fpPairs_self (v : List ℕ) : fpPairs v v = 0 := by
  unfold fpPairs
  have h1 : (fun p => !sameAt v p && sameAt v p) = fun _ => false := by
    funext p
    exact Bool.not_and_self _
  rw [h1, List.filter_false, List.length_nil]

theorem ari_self (v : List ℕ) : ari v v = 1 := by
  unfold ari
  rw [if_pos ⟨fnPairs_self v, fpPairs_self v⟩]

theorem count_zip_self (v : List ℕ) (a b : ℕ) :
    (v.zip v).count (a, b) = if a = b then v.count a else 0 := by
  induction v with
  | nil => by_cases h : a = b <;> simp [h]
  | cons x t ih =>
    rw [List.zip_cons_cons, List.count_cons, ih, List.count_cons]
    by_cases hab : a = b
    · subst hab
      by_cases hxa : x = a
      · subst hxa; simp
      · simp [hxa, Prod.ext_iff]
    · have hx : ¬ (x = a ∧ x = b) := fun hc => hab (hc.1.symm.trans hc.2)
      simp [hab, Prod.ext_iff, hx]

theorem mutualInfo_self (v : List ℕ) : mutualInfo v v = entropyH v := by
  unfold mutualInfo entropyH
  apply Finset.sum_congr rfl
  intro a ha
  have hav : a ∈ v := List.mem_toFinset.mp ha
  have hca : v.count a ≠ 0 := (List.count_pos_iff.mpr hav).ne'
  have hsingle :
      ∀ b ∈ v.toFinset, b ≠ a →
        (if (v.zip v).count (a, b) = 0 then (0 : ℝ)
          else (((v.zip v).count (a, b) : ℝ) / (v.length : ℝ)) *
            Real.log (((v.length : ℝ) * ((v.zip v).count (a, b) : ℝ)) /
              ((v.count a : ℝ) * (v.count b : ℝ)))) = 0 := by
    intro b hb hba
    have hz : (v.zip v).count (a, b) = 0 := by
      rw [count_zip_self]
      exact if_neg (fun hab2 => hba hab2.symm)
    rw [hz]
    simp
  rw [Finset.sum_eq_single_of_mem a ha hsingle, count_zip_self, if_pos rfl,
    if_neg hca]
  congr 1
  have hc : ((v.count a : ℝ)) ≠ 0 := Nat.cast_ne_zero.mpr hca
  rw [show ((v.length : ℝ) * (v.count a : ℝ)) /
      ((v.count a : ℝ) * (v.count a : ℝ)) = (v.length : ℝ) / (v.count a : ℝ)
    from by field_simp; ring]

theorem entropyH_pos (v : List ℕ) (h2 : 2 ≤ v.toFinset.card) :
    0 < entropyH v := by
  have h1 : 1 < v.toFinset.card := by omega
  obtain ⟨a, ha, b, hb, hab⟩ := Finset.one_lt_card.mp h1
  have hav : a ∈ v := List.mem_toFinset.mp ha
  have hbv : b ∈ v := List.mem_toFinset.mp hb
  have hn : 0 < v.length := List.length_pos.mpr (List.ne_nil_of_mem hav)
  have hnr : (0 : ℝ) < (v.length : ℝ) := by exact_mod_cast hn
  unfold entropyH
  apply Finset.sum_pos'
  · intro x hx
    have hxv : x ∈ v := List.mem_toFinset.mp hx
    have hcx : 0 < v.count x := List.count_pos_iff.mpr hxv
    have hcxr : (0 : ℝ) < (v.count x : ℝ) := by exact_mod_cast hcx
    apply mul_nonneg
    · positivity
    · apply Real.log_nonneg
      rw [le_div_iff hcxr, one_mul]
      exact_mod_cast List.count_le_length x v
  · refine ⟨a, ha, ?_⟩
    have hca : 0 < v.count a := List.count_pos_iff.mpr hav
    have hcar : (0 : ℝ) < (v.count a : ℝ) := by exact_mod_cast hca
    have hcan : v.count a < v.length := by
      by_contra hge
      push_neg at hge
      have heq : v.count a = v.length :=
        le_antisymm (List.count_le_length _ _) hge
      exact hab (List.count_eq_length.mp heq b hbv)
    apply mul_pos
    · positivity
    · apply Real.log_pos
      rw [lt_div_iff hcar, one_mul]
      exact_mod_cast hcan

theorem nmi_self (v : List ℕ) : nmi v v = 1 := by
  unfold nmi
  by_cases h : v.toFinset.card ≤ 1
  · rw [if_pos ⟨rfl, h⟩]
  · rw [if_neg (fun hc => h hc.2), mutualInfo_self,
      show (entropyH v + entropyH v) / 2 = entropyH v from by ring]
    exact div_self (ne_of_gt (entropyH_pos v (by omega)))

/-! ## Louvain fiber lemmas -/

theorem louvainFiber_eq (V : Finset String) (σ : String → ℕ) {u w : String}
    (h : σ u = σ w) :
    V.filter (fun x => σ x = σ u) = V.filter (fun x => σ x = σ w) := by
  ext y
  simp only [Finset.mem_filter]
  constructor
  · rintro ⟨hy, he⟩
    exact ⟨hy, he.trans h⟩
  · rintro ⟨hy, he⟩
    exact ⟨hy, he.trans h.symm⟩

theorem louvain_exactly_one (V : Finset String) (σ : String → ℕ) :
    ∀ v ∈ V, ∃! C, C ∈ louvainFibers V σ ∧ v ∈ C := by
  intro v hv
  refine ⟨V.filter (fun u => σ u = σ v),
    ⟨Finset.mem_image_of_mem _ hv, Finset.mem_filter.mpr ⟨hv, rfl⟩⟩, ?_⟩
  rintro C ⟨hC, hvC⟩
  obtain ⟨u0, hu0, rfl⟩ := Finset.mem_image.mp hC
  have hσ : σ v = σ u0 := (Finset.mem_filter.mp hvC).2
  exact louvainFiber_eq V σ hσ.symm

theorem louvain_disjoint (V : Finset String) (σ : String → ℕ) :
    ∀ A ∈ louvainFibers V σ, ∀ B ∈ louvainFibers V σ, A ≠ B → Disjoint A B := by
  intro A hA B hB hne
  obtain ⟨a0, ha0, rfl⟩ := Finset.mem_image.mp hA
  obtain ⟨b0, hb0, rfl⟩ := Finset.mem_image.mp hB
  rw [Finset.disjoint_left]
  intro x hxA hxB
  have hx1 : σ x = σ a0 := (Finset.mem_filter.mp hxA).2
  have hx2 : σ x = σ b0 := (Finset.mem_filter.mp hxB).2
  exact hne (louvainFiber_eq V σ (hx1.symm.trans hx2))

theorem louvain_sup (V : Finset String) (σ : String → ℕ) :
    (louvainFibers V σ).sup id = V := by
  ext x
  rw [Finset.mem_sup]
  constructor
  · rintro ⟨C, hC, hxC⟩
    obtain ⟨u0, hu0, rfl⟩ := Finset.mem_image.mp hC
    exact (Finset.mem_filter.mp hxC).1
  · intro hx
    exact ⟨V.filter (fun u => σ u = σ x), Finset.mem_image_of_mem _ hx,
      Finset.mem_filter.mpr ⟨hx, rfl⟩⟩

/-! ## MCL partition lemmas -/

theorem mcl_key_symm (nodes : List String) :
    ∀ {c d : List (Fin nodes.length)},
      (∀ i, i ∈ c → i ∉ d) → (∀ i, i ∈ d → i ∉ c) :=
  fun h i hid hic => h i hic hid

theorem processClusters_getElem (nodes : List String)
    (clusters : List (List (Fin nodes.length))) (k : ℕ)
    (hk2 : k < (sortK (fun c : List (Fin nodes.length) =>
      -(c.length : ℤ)) clusters).length)
    (hk : k < (processClusters nodes clusters).length) :
    (processClusters nodes clusters)[k] =
      (((sortK (fun c : List (Fin nodes.length) =>
        -(c.length : ℤ)) clusters).get ⟨k, hk2⟩).map nodes.get).toFinset := by
  simp [processClusters, List.getElem_map, List.get_eq_getElem]

theorem mcl_exactly_one (nodes : List String)
    (clusters : List (List (Fin nodes.length)))
    (h1 : nodes.Nodup)
    (h2 : List.Pairwise (fun c d => ∀ i, i ∈ c → i ∉ d) clusters)
    (h3 : ∀ i : Fin nodes.length, ∃ c ∈ clusters, i ∈ c) :
    ∀ x ∈ nodes, ∃! k : ℕ,
      ∃ hk : k < (processClusters nodes clusters).length,
        x ∈ (processClusters nodes clusters)[k] := by
  intro x hx
  have hinj : Function.Injective nodes.get := List.nodup_iff_injective_get.mp h1
  obtain ⟨ix, hix⟩ := List.mem_iff_get.mp hx
  have hperm := perm_sortK (fun c : List (Fin nodes.length) =>
    -(c.length : ℤ)) clusters
  have hdisjL : List.Pairwise (fun c d => ∀ i, i ∈ c → i ∉ d)
      (sortK (fun c : List (Fin nodes.length) => -(c.length : ℤ)) clusters) :=
    (List.Perm.pairwise_iff (mcl_key_symm nodes) hperm).mpr h2
  have hlen : (processClusters nodes clusters).length =
      (sortK (fun c : List (Fin nodes.length) =>
        -(c.length : ℤ)) clusters).length := by
    simp [processClusters]
  have hmem : ∀ (k : ℕ) (hk : k < (processClusters nodes clusters).length),
      (x ∈ (processClusters nodes clusters)[k] ↔
        ix ∈ (sortK (fun c : List (Fin nodes.length) =>
          -(c.length : ℤ)) clusters).get ⟨k, by omega⟩) := by
    intro k hk
    rw [processClusters_getElem nodes clusters k (by omega) hk,
      List.mem_toFinset, List.mem_map]
    constructor
    · rintro ⟨i, hi, hieq⟩
      have hii : i = ix := hinj (hieq.trans hix.symm)
      rwa [hii] at hi
    · intro hi
      exact ⟨ix, hi, hix⟩
  obtain ⟨c, hc, hixc⟩ := h3 ix
  obtain ⟨kf, hkf⟩ := List.mem_iff_get.mp (hperm.mem_iff.mpr hc)
  obtain ⟨kv, hkv⟩ := kf
  refine ⟨kv, ⟨by omega, ?_⟩, ?_⟩
  · rw [hmem kv (by omega)]
    rw [hkf]
    exact hixc
  · rintro k2 ⟨hk2, hxk2⟩
    rw [hmem k2 hk2] at hxk2
    by_contra hne
    have hixkv : ix ∈ (sortK (fun c : List (Fin nodes.length) =>
        -(c.length : ℤ)) clusters).get ⟨kv, hkv⟩ := by
      rw [hkf]; exact hixc
    rcases Nat.lt_or_ge k2 kv with hlt | hge
    · exact (List.pairwise_iff_get.mp hdisjL ⟨k2, by omega⟩ ⟨kv, hkv⟩
        (by simpa using hlt) ix hxk2) hixkv
    · have hgt : kv < k2 := by omega
      exact (List.pairwise_iff_get.mp hdisjL ⟨kv, hkv⟩ ⟨k2, by omega⟩
        (by simpa using hgt) ix hixkv) hxk2

theorem mcl_pairwise_disjoint (nodes : List String)
    (clusters : List (List (Fin nodes.length)))
    (h1 : nodes.Nodup)
    (h2 : List.Pairwise (fun c d => ∀ i, i ∈ c → i ∉ d) clusters) :
    List.Pairwise (fun A B => ∀ y, y ∈ A → y ∉ B)
      (processClusters nodes clusters) := by
  have hinj : Function.Injective nodes.get := List.nodup_iff_injective_get.mp h1
  have hperm := perm_sortK (fun c : List (Fin nodes.length) =>
    -(c.length : ℤ)) clusters
  have hdisjL : List.Pairwise (fun c d => ∀ i, i ∈ c → i ∉ d)
      (sortK (fun c : List (Fin nodes.length) => -(c.length : ℤ)) clusters) :=
    (List.Perm.pairwise_iff (mcl_key_symm nodes) hperm).mpr h2
  unfold processClusters
  refine List.Pairwise.map _ ?_ hdisjL
  intro c d hcd y hyc hyd
  rw [List.mem_toFinset, List.mem_map] at hyc hyd
  obtain ⟨i, hi, hieq⟩ := hyc
  obtain ⟨j, hj, hjeq⟩ := hyd
  have hji : j = i := hinj (hjeq.trans hieq.symm)
  exact hcd i hi (by rwa [hji] at hj)

theorem mcl_union (nodes : List String)
    (clusters : List (List (Fin nodes.length)))
    (h3 : ∀ i : Fin nodes.length, ∃ c ∈ clusters, i ∈ c) :
    (processClusters nodes clusters).foldr (· ∪ ·) ∅ = nodes.toFinset := by
  ext x
  rw [mem_foldr_union, List.mem_toFinset]
  constructor
  · rintro ⟨C, hC, hxC⟩
    unfold processClusters at hC
    rw [List.mem_map] at hC
    obtain ⟨c, hc, rfl⟩ := hC
    rw [List.mem_toFinset, List.mem_map] at hxC
    obtain ⟨i, hi, rfl⟩ := hxC
    exact List.get_mem nodes i.1 i.2
  · intro hx
    obtain ⟨ix, hix⟩ := List.mem_iff_get.mp hx
    obtain ⟨c, hc, hixc⟩ := h3 ix
    refine ⟨(c.map nodes.get).toFinset, ?_, ?_⟩
    · unfold processClusters
      rw [List.mem_map]
      exact ⟨c, (perm_sortK _ clusters).mem_iff.mpr hc, rfl⟩
    · rw [List.mem_toFinset, List.mem_map]
      exact ⟨ix, hixc, hix⟩

/-! ## Claims -/

/-- Claim C1: every partition produced by either community detector assigns
every node of the graph to exactly one community: the communities are
pairwise disjoint and their union is the full node set.  The Louvain
detector is the external `louvain_communities`, modelled from the spec as
the fibers of the terminal node-to-community assignment over the node
set; the MCL communities are the output of the source post-processing
`processClusters` applied to the index clusters of the external
`mc.get_clusters`, which by spec section 4.3 form a partition of the
matrix indices (hypotheses `h2`, `h3`). -/
theorem louvain_mcl_partition (V : Finset String) (σ : String → ℕ)
    (nodes : List String) (clusters : List (List (Fin nodes.length)))
    (h1 : nodes.Nodup)
    (h2 : List.Pairwise (fun c d => ∀ i, i ∈ c → i ∉ d) clusters)
    (h3 : ∀ i : Fin nodes.length, ∃ c ∈ clusters, i ∈ c) :
    (∀ v ∈ V, ∃! C, C ∈ louvainFibers V σ ∧ v ∈ C) ∧
    (∀ A ∈ louvainFibers V σ, ∀ B ∈ louvainFibers V σ, A ≠ B → Disjoint A B) ∧
    (louvainFibers V σ).sup id = V ∧
    (∀ x ∈ nodes, ∃! k : ℕ,
      ∃ hk : k < (processClusters nodes clusters).length,
        x ∈ (processClusters nodes clusters)[k]) ∧
    List.Pairwise (fun A B => ∀ y, y ∈ A → y ∉ B)
      (processClusters nodes clusters) ∧
    (processClusters nodes clusters).foldr (· ∪ ·) ∅ = nodes.toFinset :=
  ⟨louvain_exactly_one V σ, louvain_disjoint V σ, louvain_sup V σ,
    mcl_exactly_one nodes clusters h1 h2 h3,
    mcl_pairwise_disjoint nodes clusters h1 h2,
    mcl_union nodes clusters h3⟩

/-- Witness for C1 at a concrete two-community instance. -/
theorem louvain_mcl_partition_app :
    (processClusters ["A", "B", "C"]
        [[⟨0, by decide⟩], [⟨1, by decide⟩, ⟨2, by decide⟩]]).foldr
      (· ∪ ·) ∅ = (["A", "B", "C"] : List String).toFinset :=
  (louvain_mcl_partition {"A", "B"} (fun s => if s = "A" then 0 else 1)
    ["A", "B", "C"] [[⟨0, by decide⟩], [⟨1, by decide⟩, ⟨2, by decide⟩]]
    (by decide) (by decide) (by decide)).2.2.2.2.2

/-- Claim C2 counterexample: ingestion performs no validation, so the graph
built from the single record `("A", "A", -1)`, a self-loop with a
non-positive weight, contains that self-loop instead of failing with an
`InvalidEdge` condition. -/
theorem ingest_selfloop_cex :
    weightOf [("A", "A", (-1 : ℚ))] "A" "A" = some (-1) := by decide

/-- Claim C2 amended: edge ingestion never fails and performs no
validation: every ingested record, including self-loops and records with
non-positive weight, produces an edge in the constructed graph (with the
weight of the last matching record), so the constructed graph can contain
self-loops and non-positive edge weights. -/
theorem ingest_no_validation (recs : List Rec) (u v : String) (w : ℚ)
    (h : (u, v, w) ∈ recs) : (weightOf recs u v).isSome :=
  weightOf_isSome_of_mem recs u v w h

/-- Witness for the amended C2 at the self-loop record. -/
theorem ingest_no_validation_app :
    (weightOf [("A", "A", (-1 : ℚ))] "A" "A").isSome :=
  ingest_no_validation [("A", "A", (-1 : ℚ))] "A" "A" (-1) (by decide)

/-- Claim C3 counterexample: on the community `{A, B}` of the graph with
the single edge `A - B` of weight 2, the bottleneck pipeline records
degree 1 for `A` (the incident-edge count of `dict(subG.degree())`),
while the sum of the incident edge weights is 2, so the degree consumed
by the ranker is not the weighted degree. -/
theorem degree_unweighted_cex :
    btlAnal [["A", "B"]] [("A", "B", (2 : ℚ))] [("A", 0), ("B", 0)]
        [("A", 0), ("B", 0)] "A" =
      Except.ok (0, [⟨"A", 3, 0, 1, 0⟩, ⟨"B", 6, 0, 1, 0⟩]) ∧
    weightedDegreeSpec (subgraphOf [("A", "B", (2 : ℚ))] ["A", "B"]) "A" = 2 ∧
    ((1 : ℚ) ≠ 2) := by
  refine ⟨rfl, ?_, by norm_num⟩
  have hn : neighbors (subgraphOf [("A", "B", (2 : ℚ))] ["A", "B"]) "A" =
      ["B"] := by decide
  have hw : weightOf (subgraphOf [("A", "B", (2 : ℚ))] ["A", "B"]) "A" "B" =
      some 2 := by decide
  simp [weightedDegreeSpec, hn, hw]

/-- Claim C3 amended: the degree metric vector fed to the bottleneck
ranker is the unweighted degree: on a loop-free graph the `Degree` entry
of every output row equals the number of incident edges of that node in
the community subgraph, independent of the edge weights. -/
theorem btl_degree_counts_edges (communities : List (List String))
    (g : List Rec) (bc clust : List (String × ℚ)) (target : String)
    (cid : ℕ) (rows : List BtlRow)
    (hloop : ∀ r ∈ g, r.1 ≠ r.2.1)
    (hok : btlAnal communities g bc clust target = Except.ok (cid, rows)) :
    ∀ r ∈ rows,
      r.degree =
        (neighbors (subgraphOf g (communities.getD cid []))
          r.protein).length := by
  intro r hr
  unfold btlAnal at hok
  cases hfc : findCluster communities target with
  | none => rw [hfc] at hok; exact absurd hok (by simp)
  | some cid2 =>
    rw [hfc] at hok
    simp only [Except.ok.injEq, Prod.mk.injEq] at hok
    obtain ⟨hcid, hrows⟩ := hok
    subst hcid
    rw [← hrows, mem_sortK, List.mem_map] at hr
    obtain ⟨node, hnode, rfl⟩ := hr
    exact nxDegree_eq_length _ node (subgraph_loopless g _ hloop)

/-- Witness for the amended C3 on the concrete two-node community. -/
theorem btl_degree_counts_edges_app :
    (1 : ℕ) =
      (neighbors (subgraphOf [("A", "B", (2 : ℚ))] ["A", "B"]) "A").length :=
  btl_degree_counts_edges [["A", "B"]] [("A", "B", (2 : ℚ))]
    [("A", 0), ("B", 0)] [("A", 0), ("B", 0)] "A" 0
    [⟨"A", 3, 0, 1, 0⟩, ⟨"B", 6, 0, 1, 0⟩] (by decide) rfl
    ⟨"A", 3, 0, 1, 0⟩ (by decide)

/-- Claim C4 counterexample: at a subgraph of 501 nodes (just above the
default threshold 500) the approximate mode samples
`int(501 * 0.20) = 100` source nodes, which is not exactly 20 percent of
501 (that would be 100.2), so the sample is the floor of the fraction,
not exactly 20 percent of the nodes. -/
theorem bc_sample_cex :
    bcSelect 501 largeClusterLimitDefault = BCMode.approx 100 42 ∧
    ((100 : ℚ) ≠ (501 : ℚ) * (20 / 100)) := by
  exact ⟨by decide, by norm_num⟩

/-- Claim C4 amended: with the default threshold 500, a community
subgraph with more than `limit` nodes is analyzed in approximate mode
with a sample of `floor(n * 0.20)` source nodes and fixed seed 42, and a
subgraph with at most `limit` nodes in exact mode over all sources. -/
theorem bcSelect_mode (n limit : ℕ) :
    largeClusterLimitDefault = 500 ∧
    (limit < n → bcSelect n limit = BCMode.approx (n * 20 / 100) 42) ∧
    (n ≤ limit → bcSelect n limit = BCMode.exact) := by
  refine ⟨rfl, fun h => ?_, fun h => ?_⟩
  · unfold bcSelect
    rw [if_pos h]
  · unfold bcSelect
    rw [if_neg (not_lt.mpr h)]

/-- Witness for the amended C4 on both sides of the threshold. -/
theorem bcSelect_mode_app :
    bcSelect 501 500 = BCMode.approx 100 42 ∧
    bcSelect 400 500 = BCMode.exact :=
  ⟨(bcSelect_mode 501 500).2.1 (by decide),
    (bcSelect_mode 400 500).2.2 (by decide)⟩

/-- Claim C5: in the bounded top-N mode of the bottleneck ranker, every
output row of a node absent from the top-N window of a metric carries
the fallback rank `N + 1` for that metric, every aggregate score is the
sum of the three per-metric ranks, and the output table is sorted in
ascending order of aggregate score. -/
theorem topn_ranker_spec (bc deg clust : List (String × ℚ)) (N : ℕ)
    (order : List String) :
    (∀ r ∈ combinedResults bc deg clust N order,
      (r.protein ∉ (truncRanks bc false N).map Prod.fst → r.rbc = N + 1) ∧
      (r.protein ∉ (truncRanks deg false N).map Prod.fst → r.rdeg = N + 1) ∧
      (r.protein ∉ (truncRanks clust true N).map Prod.fst →
        r.rclust = N + 1) ∧
      r.total = r.rbc + r.rdeg + r.rclust) ∧
    List.Pairwise (fun a b => a.total ≤ b.total)
      (combinedResults bc deg clust N order) := by
  constructor
  · intro r hr
    simp only [combinedResults] at hr
    rw [mem_sortK] at hr
    simp only [combinedRows, List.mem_map] at hr
    obtain ⟨p, hp, rfl⟩ := hr
    exact ⟨fun h => lookupD_not_mem _ _ _ h, fun h => lookupD_not_mem _ _ _ h,
      fun h => lookupD_not_mem _ _ _ h, rfl⟩
  · have hs := sorted_sortK (fun r : CRow => (r.total : ℤ))
      (combinedRows bc deg clust N order)
    simp only [combinedResults]
    exact hs.imp (fun hab => by exact_mod_cast hab)

/-- Witness for C5: with top-1 windows holding only `A`, the output row
of `B` carries the fallback rank `1 + 1` for betweenness. -/
theorem topn_ranker_spec_app : (⟨"B", 2, 2, 2, 6⟩ : CRow).rbc = 1 + 1 :=
  ((topn_ranker_spec [("A", 1)] [("A", 1)] [("A", 0)] 1 ["A", "B"]).1
    ⟨"B", 2, 2, 2, 6⟩ (by decide)).1 (by decide)

/-- Claim C6 counterexample: with top-1 windows and set-iteration order
`C, B, A`, all three output rows tie at aggregate score 5 and the table
keeps the order `C, B, A`, so a node with a larger identifier precedes a
tied node with a smaller one: ties are not broken by node identifier. -/
theorem tie_not_by_identifier_cex :
    ¬ List.Pairwise (fun a b => a.total = b.total → a.protein ≤ b.protein)
      (combinedResults [("A", 1), ("B", 0), ("C", 0)]
        [("B", 1), ("A", 0), ("C", 0)] [("C", 0), ("A", 1), ("B", 1)] 1
        ["C", "B", "A"]) := by
  intro hcon
  have hout : combinedResults [("A", 1), ("B", 0), ("C", 0)]
      [("B", 1), ("A", 0), ("C", 0)] [("C", 0), ("A", 1), ("B", 1)] 1
      ["C", "B", "A"] =
      [⟨"C", 2, 2, 1, 5⟩, ⟨"B", 2, 1, 2, 5⟩, ⟨"A", 1, 2, 2, 5⟩] := by decide
  rw [hout] at hcon
  have hle : ("C" : String) ≤ "B" :=
    (List.pairwise_cons.mp hcon).1 ⟨"B", 2, 1, 2, 5⟩ (by simp) rfl
  rw [String.le_iff_toList_le] at hle
  exact absurd hle (by decide)

/-- Claim C6 amended: the output sort compares aggregate scores only and
is stable, so rows with equal aggregate score appear in the same relative
order as in the pre-sort row list (built in the unspecified iteration
order of the node set), not in the order of their node identifiers; the
output is deterministic only once that iteration order is fixed. -/
theorem tie_keeps_input_order (bc deg clust : List (String × ℚ)) (N : ℕ)
    (order : List String) (k : ℤ) :
    (combinedResults bc deg clust N order).filter
        (fun r => (r.total : ℤ) == k) =
      (combinedRows bc deg clust N order).filter
        (fun r => (r.total : ℤ) == k) := by
  simp only [combinedResults]
  exact filter_sortK (fun r : CRow => (r.total : ℤ)) k _

/-- Claim C7: the reproducibility comparator on N identical copies of one
partition reports adjusted Rand index 1 and normalized mutual information
1 for every unordered pair of runs. -/
theorem repro_identical_runs (P : List (List String)) (nodes : List String)
    (N : ℕ) (_hN : 2 ≤ N) :
    ∀ pr ∈ pairsOf ((List.replicate N P).map
        (fun comms => communitiesToLabels comms nodes)),
      ari pr.1 pr.2 = 1 ∧ nmi pr.1 pr.2 = 1 := by
  intro pr hpr
  rw [List.map_replicate] at hpr
  obtain ⟨h1, h2⟩ := mem_pairsOf pr _ hpr
  rw [List.eq_of_mem_replicate h1, List.eq_of_mem_replicate h2]
  exact ⟨ari_self _, nmi_self _⟩

/-- Witness for C7 at two identical copies of a two-community partition
of three nodes. -/
theorem repro_identical_runs_app :
    ari (communitiesToLabels [["A", "B"], ["C"]] ["A", "B", "C"])
        (communitiesToLabels [["A", "B"], ["C"]] ["A", "B", "C"]) = 1 ∧
    nmi (communitiesToLabels [["A", "B"], ["C"]] ["A", "B", "C"])
        (communitiesToLabels [["A", "B"], ["C"]] ["A", "B", "C"]) = 1 :=
  repro_identical_runs [["A", "B"], ["C"]] ["A", "B", "C"] 2 (by decide)
    (communitiesToLabels [["A", "B"], ["C"]] ["A", "B", "C"],
      communitiesToLabels [["A", "B"], ["C"]] ["A", "B", "C"]) (by decide)

/-- Claim C8: the community list produced by the MCL post-processing is
indexed in descending order of community size: an earlier community is at
least as large as a later one. -/
theorem mcl_sizes_descending (nodes : List String)
    (clusters : List (List (Fin nodes.length)))
    (h1 : nodes.Nodup) (h2 : ∀ c ∈ clusters, c.Nodup)
    (i j : ℕ) (hij : i < j)
    (hi : i < (processClusters nodes clusters).length)
    (hj : j < (processClusters nodes clusters).length) :
    (processClusters nodes clusters)[j].card ≤
      (processClusters nodes clusters)[i].card := by
  have hinj : Function.Injective nodes.get := List.nodup_iff_injective_get.mp h1
  have hlen : (processClusters nodes clusters).length =
      (sortK (fun c : List (Fin nodes.length) =>
        -(c.length : ℤ)) clusters).length := by
    simp [processClusters]
  have hiL : i < (sortK (fun c : List (Fin nodes.length) =>
    -(c.length : ℤ)) clusters).length := by omega
  have hjL : j < (sortK (fun c : List (Fin nodes.length) =>
    -(c.length : ℤ)) clusters).length := by omega
  have hsorted := sorted_sortK (fun c : List (Fin nodes.length) =>
    -(c.length : ℤ)) clusters
  have hkey := List.pairwise_iff_get.mp hsorted ⟨i, hiL⟩ ⟨j, hjL⟩
    (by simpa using hij)
  have hlenle : ((sortK (fun c : List (Fin nodes.length) =>
      -(c.length : ℤ)) clusters).get ⟨j, hjL⟩).length ≤
      ((sortK (fun c : List (Fin nodes.length) =>
        -(c.length : ℤ)) clusters).get ⟨i, hiL⟩).length := by omega
  have hnodI : ((sortK (fun c : List (Fin nodes.length) =>
      -(c.length : ℤ)) clusters).get ⟨i, hiL⟩).Nodup :=
    h2 _ ((perm_sortK _ clusters).mem_iff.mp (List.get_mem _ i hiL))
  rw [processClusters_getElem nodes clusters i hiL hi,
    processClusters_getElem nodes clusters j hjL hj]
  calc (((sortK (fun c : List (Fin nodes.length) =>
        -(c.length : ℤ)) clusters).get ⟨j, hjL⟩).map nodes.get).toFinset.card
      ≤ (((sortK (fun c : List (Fin nodes.length) =>
        -(c.length : ℤ)) clusters).get ⟨j, hjL⟩).map nodes.get).length :=
        List.toFinset_card_le _
    _ = ((sortK (fun c : List (Fin nodes.length) =>
        -(c.length : ℤ)) clusters).get ⟨j, hjL⟩).length :=
        List.length_map _ _
    _ ≤ ((sortK (fun c : List (Fin nodes.length) =>
        -(c.length : ℤ)) clusters).get ⟨i, hiL⟩).length := hlenle
    _ = (((sortK (fun c : List (Fin nodes.length) =>
        -(c.length : ℤ)) clusters).get ⟨i, hiL⟩).map nodes.get).length :=
        (List.length_map _ _).symm
    _ = (((sortK (fun c : List (Fin nodes.length) =>
        -(c.length : ℤ)) clusters).get ⟨i, hiL⟩).map
          nodes.get).toFinset.card :=
        (List.toFinset_card_of_nodup (hnodI.map hinj)).symm

/-- Witness for C8: with clusters of sizes 1 and 2, the processed list
puts the two-element community first. -/
theorem mcl_sizes_descending_app :
    (processClusters ["A", "B", "C"]
        [[⟨0, by decide⟩], [⟨1, by decide⟩, ⟨2, by decide⟩]])[1].card ≤
      (processClusters ["A", "B", "C"]
        [[⟨0, by decide⟩], [⟨1, by decide⟩, ⟨2, by decide⟩]])[0].card :=
  mcl_sizes_descending ["A", "B", "C"]
    [[⟨0, by decide⟩], [⟨1, by decide⟩, ⟨2, by decide⟩]] (by decide)
    (by decide) 0 1 (by decide) (by decide) (by decide)

/-- Claim C9: a target protein contained in no community of the loaded
partition makes the bottleneck analysis return an explicit error naming
the missing protein, with no rank table; the embedding is pure, so the
graph and the partition are left unchanged. -/
theorem btl_missing_target_error (communities : List (List String))
    (g : List Rec) (bc clust : List (String × ℚ)) (target : String)
    (h : ∀ c ∈ communities, target ∉ c) :
    btlAnal communities g bc clust target =
      Except.error (BtlErr.proteinNotFound target) := by
  have hnone : findCluster communities target = none :=
    fcAux_none target communities h 0
  simp [btlAnal, hnone]

/-- Witness for C9: the protein `A` is absent from the single community
`{B}`. -/
theorem btl_missing_target_error_app :
    btlAnal [["B"]] [] [] [] "A" =
      Except.error (BtlErr.proteinNotFound "A") :=
  btl_missing_target_error [["B"]] [] [] [] "A" (by decide)

/-- Claim C10: the MCL pipeline divides every ingested weight by 1000
before building its graph, while the Louvain pipeline keeps the raw
weights: for the same record list, every edge weight of the MCL graph is
the corresponding Louvain-graph weight divided by 1000. -/
theorem mcl_weights_scaled (recs : List Rec) (u v : String) :
    weightOf (mclRecords recs) u v =
      (weightOf recs u v).map (· / 1000) := by
  induction recs with
  | nil => rfl
  | cons r t ih =>
    obtain ⟨a, b, w⟩ := r
    simp only [mclRecords, List.map_cons] at ih ⊢
    simp only [weightOf, ih]
    cases hw : weightOf t u v with
    | some w2 => simp
    | none =>
      by_cases hc : (a = u ∧ b = v) ∨ (a = v ∧ b = u) <;> simp [hc]

end ProtClust
